import Mathlib

/-!
# Verification of `scrapper` (`src/scrapper_json/json_bowtech.py`)

Shallow embedding of the `SmartProductScraper` class and proofs of the
spec claims about it.  Pure string manipulation is embedded directly;
the network (HTTP fetches), the HTML parser (BeautifulSoup) and the
JSON text parser (`json.loads` on a string) are external capabilities
and are passed in as oracle functions.  Machine behaviour of the
Python standard library that the claims depend on
(`urllib.robotparser.RobotFileParser`, `urllib.parse.urlparse`,
`str.split`, `json.loads(None)` raising `TypeError`) is modelled from
the CPython sources.
-/

namespace Scrapper

/-! ## Basic string helpers (character-list level) -/

/-- Characters of a string; all URL functions below work on `List Char`. -/
def chars (s : String) : List Char := s.toList

/-- `url.split(c)[0]`: the part of the string strictly before the first
occurrence of `c` (the whole string when `c` does not occur). -/
def splitBefore (c : Char) (l : List Char) : List Char :=
  l.takeWhile (fun x => x ≠ c)

/-- Lines 59–60 of the source (`get_all_links`):
`clean_url = url.split("#")[0]; clean_url = clean_url.split("?")[0]`. -/
def stripFragmentQuery (s : String) : String :=
  ⟨splitBefore '?' (splitBefore '#' (chars s))⟩

/-- A URL is canonical when it has no fragment marker and no query marker. -/
def IsCanonical (s : String) : Prop :=
  '#' ∉ chars s ∧ '?' ∉ chars s

instance (s : String) : Decidable (IsCanonical s) := by
  unfold IsCanonical; infer_instance

/-! ## `urllib.parse` model (external capability)

`urlparse(url).netloc` per CPython `urllib/parse.py`: the scheme (a
leading `name:` with a valid scheme name) is removed; if the remainder
starts with `//`, the network location is everything up to the next
`/`, `?` or `#`; otherwise it is empty. -/

def isSchemeChar (c : Char) : Bool := c.isAlphanum || c == '+' || c == '-' || c == '.'

/-- Remove a leading `scheme:` if present (CPython `urlsplit` scheme rule). -/
def splitScheme (l : List Char) : List Char :=
  let pre := l.takeWhile (fun x => x ≠ ':')
  if pre.length < l.length ∧ pre ≠ [] ∧
      (pre.headD 'a').isAlpha ∧ pre.all isSchemeChar then
    l.drop (pre.length + 1)
  else l

/-- `urlparse(url).netloc`. -/
def netloc (s : String) : List Char :=
  let r := splitScheme (chars s)
  match r with
  | '/' :: '/' :: rest => rest.takeWhile (fun c => c ≠ '/' ∧ c ≠ '?' ∧ c ≠ '#')
  | _ => []

/-- `urlparse(url).path` (for a URL that carries a netloc, the remainder
after the netloc; otherwise the remainder after the scheme). -/
def urlPath (s : String) : List Char :=
  let r := splitScheme (chars s)
  match r with
  | '/' :: '/' :: rest => rest.dropWhile (fun c => c ≠ '/' ∧ c ≠ '?' ∧ c ≠ '#')
  | _ => r

/-- Lines 41–43: `is_same_domain`. -/
def is_same_domain (url root : String) : Bool :=
  netloc url == netloc root

/-! ## Media-file classifier (the regex of lines 61–65)

The source tests `re.search(r"\b\.(jpg|jpeg|png|gif|bmp|svg|webp)(\b|(?=\?))",
clean_url, re.IGNORECASE)`.  We model `re.search` existence directly:
the subject is lowercased (IGNORECASE; the pattern letters are already
lower case); a match is a position holding `.` whose preceding
character is a word character (that is the only way `\b` can hold just
before a non-word `.`), followed by one of the alternation's
extensions, followed by either a word boundary (end of input or a
non-word character, the extensions ending in word characters) or a
lookahead `?`. -/

/-- Python `re` word character, ASCII range (URLs here are ASCII). -/
def isWordChar (c : Char) : Bool := c.isAlphanum || c == '_'

def mediaExts : List String := ["jpg", "jpeg", "png", "gif", "bmp", "svg", "webp"]

/-- The `(\b|(?=\?))` tail after an extension. -/
def extBoundary : List Char → Bool
  | [] => true
  | c :: _ => !isWordChar c || c == '?'

/-- Match one extension literally at the head, then the boundary. -/
def matchExtFrom : List Char → List Char → Bool
  | cs, [] => extBoundary cs
  | [], _ :: _ => false
  | c :: cs, e :: es => c == e && matchExtFrom cs es

/-- Scan positions left to right; `prevW` records whether the previous
character (if any) is a word character. -/
def mediaScan : Bool → List Char → Bool
  | _, [] => false
  | prevW, c :: cs =>
    (c == '.' && prevW && mediaExts.any (fun e => matchExtFrom cs (chars e)))
      || mediaScan (isWordChar c) cs

/-- The media-link filter of lines 61–65 as a predicate on the cleaned URL. -/
def is_media_file (s : String) : Bool :=
  mediaScan false ((chars s).map Char.toLower)

/-! ## `get_all_links` (lines 53–67)

`urljoin` is an external capability: the oracle supplies each page's
anchor targets already resolved against `root_url`.  Python `set`
insertion is modelled as order-preserving duplicate-free insertion
(the set's iteration order is unspecified in Python; all theorems
below are insensitive to it). -/

/-- Duplicate-free insertion at the back. -/
def insertSet (l : List String) (a : String) : List String :=
  if a ∈ l then l else l ++ [a]

/-- The `for a in soup.find_all("a", href=True)` loop, accumulating the
`links` set. -/
def getAllLinksLoop (root : String) : List String → List String → List String
  | [], links => links
  | url :: rest, links =>
    if is_same_domain url root then
      let clean := stripFragmentQuery url
      if is_media_file clean then getAllLinksLoop root rest links
      else getAllLinksLoop root rest (insertSet links clean)
    else getAllLinksLoop root rest links

def get_all_links (root : String) (hrefs : List String) : List String :=
  getAllLinksLoop root hrefs []

/-! ## Crawl Permission Gate (lines 22–39)

`urllib.robotparser.RobotFileParser` is an external capability; its
state and the behaviour of `read`/`can_fetch` are modelled from the
CPython source (`Lib/urllib/robotparser.py`).  Entry matching (the
part reached only after a successful parse) is abstracted as a
function from user-agent and URL to the allow/deny answer. -/

structure RobotFileParser where
  disallowAll : Bool
  allowAll : Bool
  /-- Whether `last_checked` is nonzero, i.e. `parse` has run
  (`modified()` is called at the top of `parse`). -/
  lastChecked : Bool
  /-- The entry-matching answer of `can_fetch`, reached only once a
  ruleset has been parsed. -/
  ruleAnswer : String → String → Bool

/-- `RobotFileParser()` as constructed on line 27: fresh state. -/
def RobotFileParser.init : RobotFileParser :=
  { disallowAll := false, allowAll := false, lastChecked := false,
    ruleAnswer := fun _ _ => true }

/-- The possible outcomes of `urlopen` on the robots.txt URL inside
`RobotFileParser.read`. -/
inductive RobotsFetch where
  /-- `urlopen` succeeded and the body parsed to a ruleset whose entry
  matching answers `rules`. -/
  | ok (rules : String → String → Bool)
  /-- `urlopen` raised `HTTPError` with this status code (caught inside
  `read`). -/
  | httpError (code : Nat)
  /-- `urlopen` raised some other exception (network error, timeout,
  malformed-URL error); `read` does not catch it. -/
  | raises

/-- CPython `RobotFileParser.read`: a raised non-HTTP error propagates
(`Except.error`); an `HTTPError` sets `disallow_all` for 401/403,
`allow_all` for other 4xx, and nothing for other codes; success parses
the ruleset (setting `last_checked`). -/
def RobotFileParser.read (rp : RobotFileParser) : RobotsFetch → Except Unit RobotFileParser
  | .raises => .error ()
  | .httpError code =>
    if code = 401 ∨ code = 403 then .ok { rp with disallowAll := true }
    else if 400 ≤ code ∧ code < 500 then .ok { rp with allowAll := true }
    else .ok rp
  | .ok rules => .ok { rp with lastChecked := true, ruleAnswer := rules }

/-- CPython `RobotFileParser.can_fetch`. -/
def RobotFileParser.canFetch (rp : RobotFileParser) (useragent url : String) : Bool :=
  if rp.disallowAll then false
  else if rp.allowAll then true
  else if !rp.lastChecked then false
  else rp.ruleAnswer useragent url

/-- The scraper's robots-related state: `self.robot_parser`, `None`
after `__init__` (line 20). -/
structure ScraperRobots where
  robotParser : Option RobotFileParser

def initScraper : ScraperRobots := { robotParser := none }

/-- Lines 22–33, `read_robots_txt`: a fresh parser is assigned to
`self.robot_parser` on line 27, *before* the `try`; `read()` runs
inside the `try`, whose `except` only logs.  So on a raised read the
field keeps the fresh, unread parser. -/
def read_robots_txt (outcome : RobotsFetch) (st : ScraperRobots) : ScraperRobots :=
  let rp := RobotFileParser.init
  match rp.read outcome with
  | .ok rp' => { st with robotParser := some rp' }
  | .error _ => { st with robotParser := some rp }

/-- Lines 35–39, `can_fetch` (a `RobotFileParser` instance is always
truthy in Python, so the `not self.robot_parser` guard only fires on
`None`). -/
def can_fetch (st : ScraperRobots) (useragent url : String) : Bool :=
  match st.robotParser with
  | none => true
  | some rp => rp.canFetch useragent url

/-! ## Product-URL classifier (lines 45–51)

`re.search(r"/products/", url)` is a substring test;
`re.search(r"/collections/.*/products/", url)` asks for an occurrence
of `/collections/` with `/products/` somewhere after it (`.` matches
anything but a newline; URLs contain no newline). -/

/-- Substring occurrence (`re.search` of a literal pattern). -/
def containsSub : (l pat : List Char) → Bool
  | l, pat =>
    match l with
    | [] => pat.isEmpty
    | _ :: rest => pat.isPrefixOf l || containsSub rest pat

/-- The suffix strictly after the first occurrence of `pat`, if any. -/
def afterFirst : List Char → List Char → Option (List Char)
  | _, [] => some []
  | [], _ :: _ => none
  | l@(_ :: rest), pat =>
    if pat.isPrefixOf l then some (l.drop pat.length)
    else afterFirst rest pat

def is_product_url (url : String) : Bool :=
  containsSub (chars url) (chars "/products/")
    || (match afterFirst (chars url) (chars "/collections/") with
        | some rest => containsSub rest (chars "/products/")
        | none => false)

/-! ## BFS crawler (lines 69–108)

The network is the oracle `fetch : String → Option (List String)`:
`none` models an exception raised by `requests.get` /
`raise_for_status` (thrown before `visited_urls.add` on line 89, so a
failed URL is not marked visited); `some hrefs` models a successful
response whose anchor targets, already resolved by `urljoin` against
`root_url`, are `hrefs`.  BeautifulSoup parsing is total (lenient) and
raises nothing.  The gate `gate : String → Bool` is
`self.can_fetch` after `read_robots_txt` ran (line 75).  The
unbounded `while` loop is run on explicit fuel: `crawlLoop fuel s` is
the state after at most `fuel` iterations, so every intermediate state
of a session is `crawlLoop k` for some `k`, and safety properties are
proved for every fuel.  `markLog` is a ghost trace recording each
execution of `self.visited_urls.add(current_url)` in order. -/

/-- The crawler-local sets (`self.visited_urls`, `self.product_urls`)
plus the ghost mark trace. -/
structure CrawlSets where
  visited : List String
  products : List String
  markLog : List String
deriving DecidableEq, Repr

/-- A crawl state: the frontier deque paired with the sets. -/
abbrev CrawlState := List String × CrawlSets

/-- Lines 98–100: the links appended to the queue after a successful
fetch (`link not in self.visited_urls and self.can_fetch(link)`). -/
def enqueueLinks (gate : String → Bool) (visited : List String)
    (links : List String) : List String :=
  links.filter (fun link => decide (link ∉ visited) && gate link)

def crawlLoop (fetch : String → Option (List String)) (gate : String → Bool)
    (root : String) (maxPages : Nat) :
    Nat → List String → CrawlSets → CrawlState
  | 0, queue, st => (queue, st)
  | _ + 1, [], st => ([], st)
  | fuel + 1, current :: rest, st =>
    if maxPages ≤ st.visited.length then (current :: rest, st)
    else if current ∈ st.visited ∨ gate current = false then
      crawlLoop fetch gate root maxPages fuel rest st
    else
      match fetch current with
      | none => crawlLoop fetch gate root maxPages fuel rest st
      | some hrefs =>
        let visited' := insertSet st.visited current
        let products' :=
          if is_product_url current then insertSet st.products current
          else st.products
        let queue' := rest ++ enqueueLinks gate visited' (get_all_links root hrefs)
        crawlLoop fetch gate root maxPages fuel queue'
          { visited := visited', products := products',
            markLog := st.markLog ++ [current] }

/-- Lines 69–77: `crawl_site` clears the sets and starts from
`deque([root_url])` (the root is enqueued exactly as given). -/
def crawl_site (fetch : String → Option (List String)) (gate : String → Bool)
    (root : String) (maxPages : Nat) (fuel : Nat) : CrawlState :=
  crawlLoop fetch gate root maxPages fuel [root]
    { visited := [], products := [], markLog := [] }

/-! ## JSON values and Python dicts

A JSON-like value as produced by `json.loads`.  Numbers are modelled
as integers: no claim depends on fractional values, and floating point
is outside the embedding.  A Python `dict` is an insertion-ordered
association list; `setKey` is `d[k] = v` (overwrite in place if the
key exists, else append). -/

inductive JsonValue where
  | str (s : String)
  | num (n : Int)
  | bool (b : Bool)
  | null
  | arr (elems : List JsonValue)
  | obj (entries : List (String × JsonValue))

abbrev PyDict := List (String × JsonValue)

/-- `d[k] = v` on a Python dict. -/
def setKey (d : PyDict) (k : String) (v : JsonValue) : PyDict :=
  if d.any (fun p => p.1 == k) then
    d.map (fun p => if p.1 == k then (k, v) else p)
  else d ++ [(k, v)]

/-- `dict(items)`: left-to-right assignment of each pair. -/
def dictOfItems (items : List (String × JsonValue)) : PyDict :=
  items.foldl (fun d p => setKey d p.1 p.2) []

/-- `d.update(other)`: left-to-right assignment of `other`'s pairs. -/
def dictUpdate (d other : PyDict) : PyDict :=
  other.foldl (fun d p => setKey d p.1 p.2) d

/-- `d.get(k)` / `d[k]` (objects produced by `json.loads` have unique
keys, duplicates in the JSON text resolving to the last value). -/
def lookupKey (d : PyDict) (k : String) : Option JsonValue :=
  match d.find? (fun p => p.1 == k) with
  | some p => some p.2
  | none => none

/-! ## `_flatten_dict` (lines 135–157) -/

/-- Line 145: `isinstance(x, (str, int, float))`.  `bool` is a
subclass of `int` in Python, so booleans pass the test; `None`,
lists and dicts do not. -/
def isScalarPy : JsonValue → Bool
  | .str _ => true
  | .num _ => true
  | .bool _ => true
  | .null => false
  | .arr _ => false
  | .obj _ => false

/-- Python `str(x)` for the values the scalar branch joins. -/
def pyStr : JsonValue → String
  | .str s => s
  | .num n => toString n
  | .bool b => if b then "True" else "False"
  | .null => "None"
  | .arr _ => ""   -- unreached: the joining branch is guarded by `isScalarPy`
  | .obj _ => ""   -- unreached, as above

/-- Line 140: `new_key = f"{parent_key}{sep}{k}" if parent_key else k`. -/
def joinKey (parentKey sep k : String) : String :=
  if parentKey = "" then k else parentKey ++ sep ++ k

mutual

/-- The `items` list accumulated by `_flatten_dict` (lines 138–156),
before the final `dict(items)`. -/
def flattenItems : List (String × JsonValue) → String → String → List (String × JsonValue)
  | [], _, _ => []
  | (k, v) :: rest, parentKey, sep =>
    let newKey := joinKey parentKey sep k
    (match v with
     | .obj d => flattenItems d newKey sep
     | .arr xs =>
       if xs.all isScalarPy then
         [(newKey, .str (String.intercalate ", " (xs.map pyStr)))]
       else flattenInList xs newKey sep 0
     | _ => [(newKey, v)])
      ++ flattenItems rest parentKey sep

/-- Lines 148–154: `for i, item in enumerate(v): if isinstance(item, dict): ...`
(elements that are not dicts contribute nothing). -/
def flattenInList : List JsonValue → String → String → Nat → List (String × JsonValue)
  | [], _, _, _ => []
  | x :: xs, newKey, sep, i =>
    (match x with
     | .obj d => flattenItems d (newKey ++ sep ++ toString i) sep
     | _ => [])
      ++ flattenInList xs newKey sep (i + 1)

end

/-- `_flatten_dict(d, parent_key, sep)` (the source returns `dict(items)`). -/
def flatten_dict (d : List (String × JsonValue)) (parentKey sep : String) : PyDict :=
  dictOfItems (flattenItems d parentKey sep)

/-! ## `extract_schema_data` (lines 110–133)

The page hands us the JSON-LD script blocks: each block is the
`script.string` of one `<script type="application/ld+json">` tag,
which BeautifulSoup gives as `None` when the tag has no single text
child.  `json.loads` on an actual string is the external oracle
`loads` (`none` = `json.JSONDecodeError`, the only exception it raises
on a `str` input); `json.loads(None)` raises `TypeError`, which the
`except json.JSONDecodeError` clause does *not* catch, so it escapes
`extract_schema_data`.  The meta-tag/CSS fallback
`_extract_fallback_data` (lines 159–195) only reads from the parsed
page and raises nothing; its result on this page is the given
`fallback` dict. -/

inductive PyExc where
  | typeError
deriving DecidableEq, Repr

/-- Lines 117–118 and 122–125: `data["@type"] in ["Product", "WebPage"]`
(a non-string value is equal to neither list element). -/
def isWantedType : JsonValue → Bool
  | .str t => t == "Product" || t == "WebPage"
  | _ => false

/-- Lines 117–126: fold one successfully parsed block's value into the
accumulated `schema_data`. -/
def foldBlockData (acc : PyDict) : JsonValue → PyDict
  | .obj entries =>
    match lookupKey entries "@type" with
    | some t => if isWantedType t then dictUpdate acc (flattenItems entries "" "_") else acc
    | none => acc
  | .arr items =>
    items.foldl
      (fun acc item =>
        match item with
        | .obj entries =>
          match lookupKey entries "@type" with
          | some t =>
            if isWantedType t then dictUpdate acc (flattenItems entries "" "_") else acc
          | none => acc
        | _ => acc)
      acc
  | _ => acc

/-- The `for script in json_ld` loop (lines 114–128). -/
def extractBlocks (loads : String → Option JsonValue) :
    List (Option String) → PyDict → Except PyExc PyDict
  | [], acc => .ok acc
  | none :: _, _ => .error .typeError      -- json.loads(None): TypeError, uncaught
  | some s :: rest, acc =>
    match loads s with
    | none => extractBlocks loads rest acc  -- JSONDecodeError: `continue`
    | some data => extractBlocks loads rest (foldBlockData acc data)

/-- Lines 110–133, `extract_schema_data`. -/
def extract_schema_data (loads : String → Option JsonValue)
    (blocks : List (Option String)) (fallback : PyDict) : Except PyExc PyDict :=
  match extractBlocks loads blocks [] with
  | .error e => .error e
  | .ok schemaData => .ok (if schemaData.isEmpty then fallback else schemaData)

/-! ## `scrape_product` (lines 197–210) and `scrape_all_products` (lines 212–245)

A product page is an oracle result: `none` models an exception from
`requests.get` / `raise_for_status`; a successful response carries the
page's JSON-LD blocks and the fallback dict its meta tags/selectors
would produce.  The `except Exception` of `scrape_product` catches
everything raised inside — including the `TypeError` that
`extract_schema_data` can let escape — and returns `{}`. -/

structure Page where
  blocks : List (Option String)
  fallback : PyDict

def scrape_product (fetch : String → Option Page)
    (loads : String → Option JsonValue) (url : String) : PyDict :=
  match fetch url with
  | none => []
  | some page =>
    match extract_schema_data loads page.blocks page.fallback with
    | .error _ => []
    | .ok productData => setKey productData "url" (.str url)

/-- Python `str.split()` with no argument: split on runs of whitespace,
producing no empty words.  (ASCII whitespace; the claims use none
other.) -/
def isPySpace (c : Char) : Bool :=
  c == ' ' || c == '\t' || c == '\n' || c == '\r' || c == '\x0b' || c == '\x0c'

def pySplitWs : List Char → List Char → List String
  | [], cur => if cur.isEmpty then [] else [⟨cur.reverse⟩]
  | c :: cs, cur =>
    if isPySpace c then
      if cur.isEmpty then pySplitWs cs [] else (⟨cur.reverse⟩ : String) :: pySplitWs cs []
    else pySplitWs cs (c :: cur)

/-- Line 231: `" ".join(value.split())`. -/
def collapseWs (s : String) : String :=
  String.intercalate " " (pySplitWs (chars s) [])

/-- Lines 229–231: collapse whitespace in every string-valued field. -/
def normalizeRecordWs (d : PyDict) : PyDict :=
  d.map (fun p => match p.2 with
    | .str t => (p.1, .str (collapseWs t))
    | v => (p.1, v))

/-- The `for url in product_urls` loop of lines 221–238, carrying
`count` and the accumulated `all_products`.  `scrape` is
`self.scrape_product`; it catches all exceptions itself and the loop
body after it raises nothing, so the outer `try` is not taken. -/
def scrapeLoop (scrape : String → PyDict) (limit : Nat) :
    List String → Nat → List PyDict → List PyDict
  | [], _, acc => acc
  | url :: rest, count, acc =>
    if limit ≤ count then acc
    else
      let productData := scrape url
      if productData.isEmpty then scrapeLoop scrape limit rest count acc
      else scrapeLoop scrape limit rest (count + 1) (acc ++ [normalizeRecordWs productData])

/-- Lines 212–245, `scrape_all_products`, from the discovered product
URLs onward (`limit = 10` is hard-coded on line 219; persistence is an
external effect on the resulting list). -/
def scrape_all_products (fetch : String → Option Page)
    (loads : String → Option JsonValue) (productUrls : List String) : List PyDict :=
  scrapeLoop (scrape_product fetch loads) 10 productUrls 0 []

/-! ## Claim-side definitions

These follow the spec's words, for comparison with the definitions
above (which follow the source). -/

/-- The classification claimed for the media filter: the URL's path
ends, case-insensitively, in `.ext` for one of the fixed extensions. -/
def pathEndsInMediaExt (s : String) : Bool :=
  mediaExts.any (fun e => (chars ("." ++ e)).isSuffixOf ((urlPath s).map Char.toLower))

mutual

/-- Modelled from the spec's flattening rule (§4.4), word for word:
walk the object; per key, (a) an object value is recursed into with
key path `parent_child`; (b) a list of only scalars is joined as one
comma-separated string; (c) a list containing non-scalar elements is
recursed into element by element, the object elements with path
`parent_key_<index>`; (d) any other scalar is stored directly.  The
separator is a single underscore and an empty parent prefix is
omitted. -/
def flattenRuleSpec : List (String × JsonValue) → String → List (String × JsonValue)
  | [], _ => []
  | (k, v) :: rest, parentKey =>
    let key := if parentKey = "" then k else parentKey ++ "_" ++ k
    (match v with
     | .obj child => flattenRuleSpec child key
     | .arr xs =>
       if xs.all isScalarPy then
         [(key, .str (String.intercalate ", " (xs.map pyStr)))]
       else flattenRuleSpecList xs key 0
     | other => [(key, other)])
      ++ flattenRuleSpec rest parentKey

def flattenRuleSpecList : List JsonValue → String → Nat → List (String × JsonValue)
  | [], _, _ => []
  | x :: xs, key, i =>
    (match x with
     | .obj child => flattenRuleSpec child (key ++ "_" ++ toString i)
     | _ => [])
      ++ flattenRuleSpecList xs key (i + 1)

end

/-! ## Helper lemmas -/

theorem chars_mk (l : List Char) : chars ⟨l⟩ = l := rfl

theorem not_mem_splitBefore (c : Char) (l : List Char) : c ∉ splitBefore c l := by
  intro h
  have := List.mem_takeWhile_imp h
  simp at this

theorem mem_splitBefore_sub {x c : Char} {l : List Char}
    (h : x ∈ splitBefore c l) : x ∈ l :=
  (List.takeWhile_sublist _).subset h

theorem splitBefore_eq_self {c : Char} {l : List Char} (h : c ∉ l) :
    splitBefore c l = l := by
  apply List.takeWhile_eq_self_iff.2
  intro x hx
  simp only [ne_eq, decide_eq_true_eq]
  exact fun hxc => h (hxc ▸ hx)

theorem isCanonical_strip (u : String) : IsCanonical (stripFragmentQuery u) := by
  constructor
  · intro h
    exact not_mem_splitBefore '#' (chars u) (mem_splitBefore_sub h)
  · exact not_mem_splitBefore '?' (splitBefore '#' (chars u))

theorem mem_insertSet {u a : String} {l : List String} :
    u ∈ insertSet l a ↔ u ∈ l ∨ u = a := by
  unfold insertSet
  by_cases h : a ∈ l <;> simp [h]
  intro hu
  exact hu ▸ h

theorem insertSet_length (l : List String) (a : String) :
    (insertSet l a).length ≤ l.length + 1 := by
  unfold insertSet
  by_cases h : a ∈ l <;> simp [h]

theorem mem_getAllLinksLoop {root : String} :
    ∀ {hrefs acc : List String} {u : String},
      u ∈ getAllLinksLoop root hrefs acc → u ∈ acc ∨ IsCanonical u := by
  intro hrefs
  induction hrefs with
  | nil =>
    intro acc u h
    exact Or.inl h
  | cons url rest ih =>
    intro acc u h
    rw [getAllLinksLoop] at h
    by_cases hd : is_same_domain url root
    · simp only [hd, if_true] at h
      by_cases hm : is_media_file (stripFragmentQuery url)
      · simp only [hm, if_true] at h
        exact ih h
      · simp only [hm, if_false] at h
        rcases ih h with hacc | hc
        · rcases mem_insertSet.1 hacc with h' | h'
          · exact Or.inl h'
          · exact Or.inr (h' ▸ isCanonical_strip url)
        · exact Or.inr hc
    · simp only [hd, if_false] at h
      exact ih h

theorem mem_get_all_links {root u : String} {hrefs : List String}
    (h : u ∈ get_all_links root hrefs) : IsCanonical u := by
  rcases mem_getAllLinksLoop h with h' | h'
  · simp at h'
  · exact h'

theorem mem_enqueueLinks {gate : String → Bool} {visited links : List String}
    {l : String} (h : l ∈ enqueueLinks gate visited links) :
    l ∈ links ∧ l ∉ visited ∧ gate l = true := by
  unfold enqueueLinks at h
  rw [List.mem_filter] at h
  obtain ⟨h1, h2⟩ := h
  rw [Bool.and_eq_true, decide_eq_true_eq] at h2
  exact ⟨h1, h2.1, h2.2⟩

/-- Frontier invariant: if every queued URL is the root or canonical,
this is preserved by the crawl loop (discovered links are cleaned by
`get_all_links` before they are enqueued). -/
theorem crawlLoop_queue_inv (fetch : String → Option (List String))
    (gate : String → Bool) (root : String) (maxPages : Nat) :
    ∀ (fuel : Nat) (queue : List String) (st : CrawlSets),
      (∀ u ∈ queue, u = root ∨ IsCanonical u) →
      ∀ u ∈ (crawlLoop fetch gate root maxPages fuel queue st).1,
        u = root ∨ IsCanonical u := by
  intro fuel
  induction fuel with
  | zero =>
    intro queue st hq u hu
    simp only [crawlLoop] at hu
    exact hq u hu
  | succ n ih =>
    intro queue st hq u hu
    rcases queue with _ | ⟨current, rest⟩
    · simp only [crawlLoop] at hu
      simp at hu
    · simp only [crawlLoop] at hu
      have hrest : ∀ v ∈ rest, v = root ∨ IsCanonical v := fun v hv =>
        hq v (List.mem_cons_of_mem _ hv)
      split at hu
      · exact hq u hu
      · split at hu
        · exact ih rest st hrest u hu
        · rcases hf : fetch current with _ | hrefs <;> rw [hf] at hu
          · exact ih rest st hrest u hu
          · refine ih _ _ ?_ u hu
            intro v hv
            rcases List.mem_append.1 hv with hv' | hv'
            · exact hrest v hv'
            · exact Or.inr (mem_get_all_links (mem_enqueueLinks hv').1)

/-- Visit invariant: the mark trace stays duplicate-free and mirrors
the visited set, and the visited set never exceeds the page budget. -/
theorem crawlLoop_mark_inv (fetch : String → Option (List String))
    (gate : String → Bool) (root : String) (maxPages : Nat) :
    ∀ (fuel : Nat) (queue : List String) (st : CrawlSets),
      st.markLog.Nodup → (∀ u, u ∈ st.markLog ↔ u ∈ st.visited) →
      st.visited.length ≤ maxPages →
      ((crawlLoop fetch gate root maxPages fuel queue st).2.markLog.Nodup ∧
        (crawlLoop fetch gate root maxPages fuel queue st).2.visited.length ≤ maxPages) := by
  intro fuel
  induction fuel with
  | zero =>
    intro queue st h1 h2 h3
    simp only [crawlLoop]
    exact ⟨h1, h3⟩
  | succ n ih =>
    intro queue st h1 h2 h3
    rcases queue with _ | ⟨current, rest⟩
    · simp only [crawlLoop]
      exact ⟨h1, h3⟩
    · simp only [crawlLoop]
      split
      · exact ⟨h1, h3⟩
      · split
        · exact ih rest st h1 h2 h3
        · rename_i hmax hskip
          have hcv : current ∉ st.visited := fun hc => hskip (Or.inl hc)
          have hcm : current ∉ st.markLog := fun hc => hcv ((h2 current).1 hc)
          rcases hf : fetch current with _ | hrefs
          · exact ih rest st h1 h2 h3
          · refine ih _ _ ?_ ?_ ?_
            · simp only [List.nodup_append, List.nodup_cons, List.nodup_nil]
              refine ⟨h1, ⟨by simp, by simp⟩, ?_⟩
              intro a ha hb
              simp at hb
              exact hcm (hb ▸ ha)
            · intro u
              simp only [List.mem_append, List.mem_singleton, mem_insertSet]
              constructor
              · rintro (hu | hu)
                · exact Or.inl ((h2 u).1 hu)
                · exact Or.inr hu
              · rintro (hu | hu)
                · exact Or.inl ((h2 u).2 hu)
                · exact Or.inr hu
            · calc (insertSet st.visited current).length
                  ≤ st.visited.length + 1 := insertSet_length _ _
                _ ≤ maxPages := by omega

/-! ### Characterizing the media regex -/

/-- Whether the character just before a match position is a word
character: `prevW` when nothing of the subject precedes the position,
otherwise the last preceding character decides. -/
def WordBefore : Bool → List Char → Bool
  | prevW, [] => prevW
  | _, c :: pre => WordBefore (isWordChar c) pre

theorem wordBefore_iff : ∀ (pre : List Char) (w : Bool),
    WordBefore w pre = true ↔
      ((pre = [] ∧ w = true) ∨
        ∃ c, pre.getLast? = some c ∧ isWordChar c = true) := by
  intro pre
  induction pre with
  | nil =>
    intro w
    simp [WordBefore]
  | cons c pre' ih =>
    intro w
    rw [WordBefore]
    rw [ih (isWordChar c)]
    cases pre' with
    | nil => simp
    | cons p ps => simp [List.getLast?_cons_cons]

theorem matchExtFrom_iff : ∀ (ext cs : List Char),
    matchExtFrom cs ext = true ↔
      ∃ post, cs = ext ++ post ∧ extBoundary post = true := by
  intro ext
  induction ext with
  | nil =>
    intro cs
    rw [matchExtFrom]
    simp
  | cons e es ih =>
    intro cs
    cases cs with
    | nil =>
      rw [matchExtFrom]
      simp
    | cons c cs' =>
      rw [matchExtFrom]
      simp only [Bool.and_eq_true, beq_iff_eq]
      constructor
      · rintro ⟨hce, hm⟩
        obtain ⟨post, hpost, hb⟩ := (ih cs').1 hm
        exact ⟨post, by simp [hce, hpost], hb⟩
      · rintro ⟨post, hcs, hb⟩
        simp only [List.cons_append, List.cons.injEq] at hcs
        exact ⟨hcs.1, (ih cs').2 ⟨post, hcs.2, hb⟩⟩

theorem mediaScan_iff : ∀ (l : List Char) (prevW : Bool),
    mediaScan prevW l = true ↔
      ∃ pre ext post, ext ∈ mediaExts ∧
        l = pre ++ '.' :: (chars ext ++ post) ∧
        WordBefore prevW pre = true ∧ extBoundary post = true := by
  intro l
  induction l with
  | nil =>
    intro prevW
    rw [mediaScan]
    simp only [Bool.false_eq_true, false_iff]
    rintro ⟨pre, ext, post, -, habs, -, -⟩
    exact List.not_mem_nil '.' (habs ▸ List.mem_append_right pre (List.mem_cons_self _ _))
  | cons c cs ih =>
    intro prevW
    rw [mediaScan]
    simp only [Bool.or_eq_true, Bool.and_eq_true, beq_iff_eq, List.any_eq_true]
    constructor
    · rintro (⟨⟨hc, hw⟩, ext, hextmem, hmatch⟩ | hrec)
      · obtain ⟨post, hpost, hb⟩ := (matchExtFrom_iff (chars ext) cs).1 hmatch
        refine ⟨[], ext, post, hextmem, ?_, ?_, hb⟩
        · simp [hc, hpost]
        · simpa [WordBefore] using hw
      · obtain ⟨pre, ext, post, hm, hl, hw, hb⟩ := (ih (isWordChar c)).1 hrec
        exact ⟨c :: pre, ext, post, hm, by simp [hl], by rwa [WordBefore], hb⟩
    · rintro ⟨pre, ext, post, hm, hl, hw, hb⟩
      cases pre with
      | nil =>
        simp only [List.nil_append, List.cons.injEq] at hl
        left
        refine ⟨⟨hl.1, by simpa [WordBefore] using hw⟩, ext, hm, ?_⟩
        exact (matchExtFrom_iff (chars ext) cs).2 ⟨post, hl.2, hb⟩
      | cons p pre' =>
        simp only [List.cons_append, List.cons.injEq] at hl
        right
        refine (ih (isWordChar c)).2 ⟨pre', ext, post, hm, hl.2, ?_, hb⟩
        rw [← hl.1] at hw
        rwa [WordBefore] at hw

/-! ### The flattening rule -/

mutual

theorem flattenItems_eq_spec : ∀ (d : List (String × JsonValue)) (pk : String),
    flattenItems d pk "_" = flattenRuleSpec d pk
  | [], _ => by simp only [flattenItems, flattenRuleSpec]
  | (k, v) :: rest, pk => by
    have hrest := flattenItems_eq_spec rest pk
    cases v with
    | obj child =>
      have hchild := flattenItems_eq_spec child (joinKey pk "_" k)
      simp only [flattenItems, flattenRuleSpec, joinKey] at hchild ⊢
      rw [hchild, hrest]
    | arr xs =>
      have hxs := flattenInList_eq_spec xs (joinKey pk "_" k) 0
      simp only [flattenItems, flattenRuleSpec, joinKey] at hxs ⊢
      rw [hxs, hrest]
    | str s =>
      simp only [flattenItems, flattenRuleSpec, joinKey]
      rw [hrest]
    | num n =>
      simp only [flattenItems, flattenRuleSpec, joinKey]
      rw [hrest]
    | bool b =>
      simp only [flattenItems, flattenRuleSpec, joinKey]
      rw [hrest]
    | null =>
      simp only [flattenItems, flattenRuleSpec, joinKey]
      rw [hrest]

theorem flattenInList_eq_spec : ∀ (xs : List JsonValue) (key : String) (i : Nat),
    flattenInList xs key "_" i = flattenRuleSpecList xs key i
  | [], _, _ => by simp only [flattenInList, flattenRuleSpecList]
  | x :: xs, key, i => by
    have hxs := flattenInList_eq_spec xs key (i + 1)
    cases x with
    | obj child =>
      have hchild := flattenItems_eq_spec child (key ++ "_" ++ toString i)
      simp only [flattenInList, flattenRuleSpecList]
      rw [hchild, hxs]
    | arr ys =>
      simp only [flattenInList, flattenRuleSpecList]
      rw [hxs]
    | str s =>
      simp only [flattenInList, flattenRuleSpecList]
      rw [hxs]
    | num n =>
      simp only [flattenInList, flattenRuleSpecList]
      rw [hxs]
    | bool b =>
      simp only [flattenInList, flattenRuleSpecList]
      rw [hxs]
    | null =>
      simp only [flattenInList, flattenRuleSpecList]
      rw [hxs]

end

/-! ### Python-dict lemmas -/

theorem lookupKey_map_replace (k : String) (v : JsonValue) :
    ∀ d : PyDict, d.any (fun p => p.1 == k) = true →
      lookupKey (d.map (fun p => if p.1 == k then (k, v) else p)) k = some v := by
  intro d
  induction d with
  | nil => intro h; simp at h
  | cons p rest ih =>
    intro h
    rw [List.map_cons]
    by_cases hp : p.1 == k
    · rw [if_pos hp]
      simp [lookupKey, List.find?_cons]
    · rw [if_neg hp]
      have h' : rest.any (fun p => p.1 == k) = true := by
        rw [List.any_cons] at h
        simpa [hp] using h
      simpa [lookupKey, List.find?_cons, hp] using ih h'

theorem lookupKey_append_new (k : String) (v : JsonValue) :
    ∀ d : PyDict, d.any (fun p => p.1 == k) = false →
      lookupKey (d ++ [(k, v)]) k = some v := by
  intro d
  induction d with
  | nil =>
    intro _
    simp [lookupKey, List.find?_cons]
  | cons p rest ih =>
    intro h
    rw [List.any_cons, Bool.or_eq_false_iff] at h
    rw [List.cons_append]
    simpa [lookupKey, List.find?_cons, h.1] using ih h.2

theorem lookupKey_setKey (d : PyDict) (k : String) (v : JsonValue) :
    lookupKey (setKey d k v) k = some v := by
  unfold setKey
  by_cases h : d.any (fun p => p.1 == k)
  · rw [if_pos h]
    exact lookupKey_map_replace k v d h
  · rw [if_neg h]
    rw [Bool.not_eq_true] at h
    exact lookupKey_append_new k v d h

theorem normalizeRecordWs_ne_nil {d : PyDict} (h : d ≠ []) :
    normalizeRecordWs d ≠ [] := by
  unfold normalizeRecordWs
  simpa using h

/-! ### Harvest-loop lemmas -/

theorem scrapeLoop_eq (scrape : String → PyDict) (limit : Nat) :
    ∀ (urls : List String) (count : Nat) (acc : List PyDict),
      scrapeLoop scrape limit urls count acc =
        acc ++ ((urls.filter (fun u => !(scrape u).isEmpty)).map
          (fun u => normalizeRecordWs (scrape u))).take (limit - count) := by
  intro urls
  induction urls with
  | nil =>
    intro count acc
    simp [scrapeLoop]
  | cons u rest ih =>
    intro count acc
    rw [scrapeLoop]
    by_cases hle : limit ≤ count
    · rw [if_pos hle]
      have h0 : limit - count = 0 := by omega
      simp [h0]
    · rw [if_neg hle]
      by_cases hemp : (scrape u).isEmpty
      · simp only [hemp, if_true]
        rw [ih count acc]
        simp [List.filter_cons, hemp]
      · simp only [hemp, if_false]
        rw [ih (count + 1) (acc ++ [normalizeRecordWs (scrape u)])]
        have htake : limit - count = (limit - (count + 1)) + 1 := by omega
        simp [List.filter_cons, hemp, htake, List.append_assoc]

theorem scrapeLoop_no_empty (scrape : String → PyDict) (limit : Nat) :
    ∀ (urls : List String) (count : Nat) (acc : List PyDict),
      [] ∉ acc → [] ∉ scrapeLoop scrape limit urls count acc := by
  intro urls
  induction urls with
  | nil =>
    intro count acc hacc
    simpa [scrapeLoop] using hacc
  | cons u rest ih =>
    intro count acc hacc
    rw [scrapeLoop]
    by_cases hle : limit ≤ count
    · rw [if_pos hle]; exact hacc
    · rw [if_neg hle]
      by_cases hemp : (scrape u).isEmpty
      · simp only [hemp, if_true]
        exact ih count acc hacc
      · simp only [hemp, if_false]
        apply ih
        intro hmem
        rcases List.mem_append.1 hmem with hmem | hmem
        · exact hacc hmem
        · rw [List.mem_singleton] at hmem
          exact normalizeRecordWs_ne_nil (by simpa using hemp) hmem.symm

/-- Canonical URLs are fixed points of normalization. -/
theorem stripFragmentQuery_of_canonical (s : String) (hs : IsCanonical s) :
    stripFragmentQuery s = s := by
  obtain ⟨hs1, hs2⟩ := hs
  unfold stripFragmentQuery
  rw [splitBefore_eq_self hs1]
  rw [splitBefore_eq_self hs2]
  rfl

/-! ## Claims -/

/-- Claim C1 (code bug): the spec says a failed robots.txt load leaves
the gate in allow-all mode, and the code's own comment on line 38
("Assume permission if robots.txt couldn't be read") agrees — but
`self.robot_parser` is assigned on line 27 *before* the `try`, so when
`read()` raises (network error, timeout), `can_fetch` delegates to an
unread `RobotFileParser`, which denies every URL (CPython returns
`False` while `last_checked` is unset).  The `not self.robot_parser`
allow-all guard is dead after `read_robots_txt`: the field is never
`None`. -/
theorem robots_read_failure_denies_all (st : ScraperRobots) (ua url : String) :
    can_fetch (read_robots_txt RobotsFetch.raises st) ua url = false ∧
    (∀ outcome : RobotsFetch, (read_robots_txt outcome st).robotParser ≠ none) := by
  constructor
  · rfl
  · intro outcome
    cases outcome with
    | ok rules => simp [read_robots_txt, RobotFileParser.read]
    | httpError code =>
      by_cases h1 : code = 401 ∨ code = 403
      · simp [read_robots_txt, RobotFileParser.read, h1]
      · by_cases h2 : 400 ≤ code ∧ code < 500
        · simp [read_robots_txt, RobotFileParser.read, h1, h2]
        · simp [read_robots_txt, RobotFileParser.read, h1, h2]
    | raises => simp [read_robots_txt, RobotFileParser.read]

/-- Claim C2 (code bug): extraction is claimed never to raise, with a
block lacking a parseable body skipped silently; but a JSON-LD script
block with no text body (`script.string` is `None`) makes
`json.loads(None)` raise `TypeError`, which `except
json.JSONDecodeError` does not catch, so it escapes
`extract_schema_data`. -/
theorem extract_schema_none_block_raises :
    extract_schema_data (fun _ => none) [none] [] =
      Except.error PyExc.typeError := rfl

/-- Claim C3 (confirmed): the item walk of `_flatten_dict` coincides
with the spec's flattening rule (a)–(d) as transcribed in
`flattenRuleSpec`, and `_flatten_dict` is its `dict(...)`. -/
theorem flatten_dict_matches_spec (d : List (String × JsonValue)) (parentKey : String) :
    flattenItems d parentKey "_" = flattenRuleSpec d parentKey ∧
    flatten_dict d parentKey "_" = dictOfItems (flattenRuleSpec d parentKey) := by
  have h := flattenItems_eq_spec d parentKey
  refine ⟨h, ?_⟩
  unfold flatten_dict
  rw [h]

/-- A three-page site on which two pages link to the same third page. -/
def cexFetch : String → Option (List String) := fun u =>
  if u = "http://s/r" then some ["http://s/a", "http://s/b"]
  else if u = "http://s/a" then some ["http://s/c"]
  else if u = "http://s/b" then some ["http://s/c"]
  else some []

/-- Claim C4 (counterexample): the enqueue check on lines 98–100 tests
the visited set but not the queue, so after crawling the root and the
two pages that both link to `http://s/c`, the frontier holds that URL
twice. -/
theorem crawl_queue_duplicate_cex :
    ¬ (crawl_site cexFetch (fun _ => true) "http://s/r" 10 3).1.Nodup := by
  decide

/-- Claim C4 (amended): a discovered link is enqueued only if it is not
already visited and the gate allows it; the queue may hold duplicate
entries for a URL reachable from several pages, but the dequeue-time
visited check keeps any URL from being marked visited twice. -/
theorem crawl_enqueue_guard :
    (∀ (gate : String → Bool) (visited links : List String) (l : String),
        l ∈ enqueueLinks gate visited links → l ∉ visited ∧ gate l = true) ∧
    (∀ (fetch : String → Option (List String)) (gate : String → Bool)
        (root : String) (maxPages fuel : Nat),
        (crawl_site fetch gate root maxPages fuel).2.markLog.Nodup) := by
  constructor
  · intro gate visited links l h
    exact ⟨(mem_enqueueLinks h).2.1, (mem_enqueueLinks h).2.2⟩
  · intro fetch gate root maxPages fuel
    exact (crawlLoop_mark_inv fetch gate root maxPages fuel [root]
      ⟨[], [], []⟩ (by simp) (by simp) (by simp)).1

theorem crawl_enqueue_guard_witness :
    "http://s/x" ∉ ([] : List String) ∧
      (fun (_ : String) => true) "http://s/x" = true :=
  crawl_enqueue_guard.1 (fun _ => true) [] ["http://s/x"] "http://s/x"
    (by simp [enqueueLinks])

/-- Claim C5 (confirmed): a crawl session marks at most `maxPages` URLs
visited, and the trace of visited-marking events repeats no URL — the
`len(visited) < max_pages` loop guard and the dequeue-time visited
check, for every fetch outcome, gate, root and fuel. -/
theorem crawl_visited_bound_and_unique (fetch : String → Option (List String))
    (gate : String → Bool) (root : String) (maxPages fuel : Nat) :
    (crawl_site fetch gate root maxPages fuel).2.visited.length ≤ maxPages ∧
    (crawl_site fetch gate root maxPages fuel).2.markLog.Nodup := by
  have h := crawlLoop_mark_inv fetch gate root maxPages fuel [root]
    ⟨[], [], []⟩ (by simp) (by simp) (by simp)
  exact ⟨h.2, h.1⟩

/-- Claim C6 (counterexample): `.../photo.jpg/info` has a path that does
not end in a media extension — the extension occurs mid-path — yet the
regex matches `.jpg` at the interior word boundary before `/`, so the
classifier returns true, refuting the claimed "ends-in" iff. -/
theorem is_media_file_interior_cex :
    is_media_file "https://example.com/photo.jpg/info" = true ∧
    pathEndsInMediaExt "https://example.com/photo.jpg/info" = false := by
  constructor
  · decide
  · decide

/-- Claim C6 (amended): the classifier returns true iff the lowercased
URL contains a dot that is preceded by a word character and followed
by one of the extensions and then a word boundary (end of input or a
non-word character) or a `?`.  Paths ending in `.ext` after a word
character match and bare substrings without the dot (`jpg-strap`) do
not, but interior occurrences such as `.jpg/` also match. -/
theorem is_media_file_iff (s : String) :
    is_media_file s = true ↔
      ∃ pre ext post, ext ∈ mediaExts ∧
        (chars s).map Char.toLower = pre ++ '.' :: (chars ext ++ post) ∧
        WordBefore false pre = true ∧ extBoundary post = true := by
  unfold is_media_file
  exact mediaScan_iff _ false

/-- Claim C7 (counterexample): `crawl_site` enqueues the root URL
exactly as given (line 71), so a root carrying a query string enters
the frontier non-canonical. -/
theorem crawl_root_query_cex :
    "http://s/p?x=1" ∈
      (crawl_site (fun _ => some []) (fun _ => true) "http://s/p?x=1" 10 0).1 ∧
    ¬ IsCanonical "http://s/p?x=1" := by
  constructor
  · decide
  · decide

/-- Claim C7 (amended): every URL on the frontier other than the root
as given is canonical — link discovery strips fragment and query
before enqueueing; the root itself is enqueued unnormalized. -/
theorem crawl_queue_canonical (fetch : String → Option (List String))
    (gate : String → Bool) (root : String) (maxPages fuel : Nat) :
    ∀ u ∈ (crawl_site fetch gate root maxPages fuel).1,
      u = root ∨ IsCanonical u := by
  apply crawlLoop_queue_inv
  intro u hu
  rw [List.mem_singleton] at hu
  exact Or.inl hu

theorem crawl_queue_canonical_witness :
    "http://s/r" = "http://s/r" ∨ IsCanonical "http://s/r" :=
  crawl_queue_canonical (fun _ => some []) (fun _ => true) "http://s/r" 10 0
    "http://s/r" (by decide)

/-- Claim C8 (confirmed): normalization leaves neither a fragment nor a
query marker and is idempotent. -/
theorem normalize_strips_and_idempotent (u : String) :
    IsCanonical (stripFragmentQuery u) ∧
    stripFragmentQuery (stripFragmentQuery u) = stripFragmentQuery u :=
  ⟨isCanonical_strip u, stripFragmentQuery_of_canonical _ (isCanonical_strip u)⟩

/-- Claim C9 (confirmed): the harvest run returns exactly the
whitespace-normalized records of the successful (non-empty) scrapes,
in traversal order, capped at the hard-coded limit of 10 — failed URLs
are skipped, abort nothing and consume no budget. -/
theorem scrape_all_products_eq (fetch : String → Option Page)
    (loads : String → Option JsonValue) (productUrls : List String) :
    scrape_all_products fetch loads productUrls =
      ((productUrls.filter (fun u => !(scrape_product fetch loads u).isEmpty)).map
        (fun u => normalizeRecordWs (scrape_product fetch loads u))).take 10 := by
  unfold scrape_all_products
  rw [scrapeLoop_eq]
  simp

/-- Claim C10 (confirmed): `scrape_product` turns any fetch or
extraction failure into the empty record; the `url` field (holding the
requested URL) is present exactly in the success case; and the
orchestrator never appends an empty record to the output. -/
theorem scrape_product_failure_contract :
    (∀ (fetch : String → Option Page) (loads : String → Option JsonValue)
        (url : String), fetch url = none → scrape_product fetch loads url = []) ∧
    (∀ (fetch : String → Option Page) (loads : String → Option JsonValue)
        (url : String) (page : Page) (e : PyExc),
        fetch url = some page →
        extract_schema_data loads page.blocks page.fallback = Except.error e →
        scrape_product fetch loads url = []) ∧
    (∀ (fetch : String → Option Page) (loads : String → Option JsonValue)
        (url : String),
        scrape_product fetch loads url = [] ∨
        lookupKey (scrape_product fetch loads url) "url" = some (JsonValue.str url)) ∧
    (∀ (fetch : String → Option Page) (loads : String → Option JsonValue)
        (productUrls : List String),
        [] ∉ scrape_all_products fetch loads productUrls) := by
  refine ⟨?_, ?_, ?_, ?_⟩
  · intro fetch loads url h
    simp [scrape_product, h]
  · intro fetch loads url page e h1 h2
    simp [scrape_product, h1, h2]
  · intro fetch loads url
    cases hf : fetch url with
    | none =>
      left
      simp [scrape_product, hf]
    | some page =>
      cases he : extract_schema_data loads page.blocks page.fallback with
      | error e =>
        left
        simp [scrape_product, hf, he]
      | ok d =>
        right
        have hrw : scrape_product fetch loads url = setKey d "url" (JsonValue.str url) := by
          simp [scrape_product, hf, he]
        rw [hrw]
        exact lookupKey_setKey d "url" (JsonValue.str url)
  · intro fetch loads productUrls
    unfold scrape_all_products
    exact scrapeLoop_no_empty _ 10 productUrls 0 [] (by simp)

theorem scrape_product_failure_contract_witness :
    scrape_product (fun _ => none) (fun _ => none) "http://s/p" = [] :=
  scrape_product_failure_contract.1 (fun _ => none) (fun _ => none)
    "http://s/p" rfl

end Scrapper
